import Mathlib

/-!
Verification of the apx-image-builder stage orchestration engine.

This file gives a shallow embedding of the orchestration core of the
repository (the stage sequencer, selector resolver, run controller,
freshness tracker, persistent state store, patch sequencer and bypass
machinery from `apx_image_builder/main.py` and
`apx-image-builder/builders/base.py`) and proves, or refutes, the frozen
claims about it.
-/

namespace Apx

/-- A qualified stage key: (builder name, stage name), e.g. ("kernel", "build"). -/
abbrev Key := String × String

/-! ## Sequencer (main.py, `sequence_stages`, lines 287-309)

The reorder loop repeatedly focuses the first stage of the working list.
The inner `for after in stageset[stage].after` loop, which calls
`required_stages.insert(0, after)` for every predecessor that is still in
the working list and unsequenced, is embedded as `insertLoop`:
each qualifying predecessor is pushed onto the front of the current list,
and the flag records whether any insertion happened. -/
def insertLoop (afters req seq : List Key) : List Key × Bool :=
  match afters with
  | [] => (req, false)
  | a :: rest =>
    if a ∈ req ∧ a ∉ seq then
      ((insertLoop rest (a :: req) seq).1, true)
    else insertLoop rest req seq

/-- The `while required_stages:` loop of `sequence_stages`, fuelled.
`none` means the fuel ran out (the Python loop would still be running). -/
def sequenceLoop (afterOf : Key → List Key) : Nat → List Key → List Key → Option (List Key)
  | _, [], seq => some seq
  | 0, _ :: _, _ => none
  | fuel + 1, stage :: rest, seq =>
    if stage ∈ seq then sequenceLoop afterOf fuel rest seq
    else
      let p := insertLoop (afterOf stage) (stage :: rest) seq
      if p.2 then sequenceLoop afterOf fuel p.1 seq
      else sequenceLoop afterOf fuel rest (seq ++ [stage])

/-- Characterization of the insertion pass: the qualifying predecessors are
prepended in REVERSE of their iteration order, and the flag is set iff at
least one qualified. -/
theorem insertLoop_eq (afters req seq : List Key) :
    insertLoop afters req seq =
      (((afters.filter (fun a => decide (a ∈ req ∧ a ∉ seq))).reverse) ++ req,
        !((afters.filter (fun a => decide (a ∈ req ∧ a ∉ seq))).isEmpty)) := by
  induction afters generalizing req with
  | nil => simp [insertLoop]
  | cons a rest ih =>
    by_cases h : a ∈ req ∧ a ∉ seq
    · have hmem : a ∈ req := h.1
      have hcongr : ∀ x ∈ rest,
          decide (x ∈ a :: req ∧ x ∉ seq) = decide (x ∈ req ∧ x ∉ seq) := by
        intro x _
        by_cases hxa : x = a
        · subst hxa; simp [List.mem_cons, hmem]
        · simp [List.mem_cons, hxa]
      simp only [insertLoop, if_pos h, ih (a :: req), List.filter_cons,
        decide_eq_true h, List.filter_congr hcongr]
      simp
    · have hcond : ¬ (a ∈ req ∧ a ∉ seq) := h
      simp only [insertLoop, if_neg hcond, ih req, List.filter_cons]
      simp [hcond]

/-- Invariant maintained by the sequencing loop, relative to the selected
stage set `S` (the initial working list): every selected stage is either
already sequenced or still in the working list; the working list and the
output only hold selected stages; the output has no duplicates; and every
`after`-predecessor of an output stage that is selected appears earlier in
the output. -/
def SeqInv (S : List Key) (afterOf : Key → List Key) (req seq : List Key) : Prop :=
  (∀ x ∈ S, x ∈ seq ∨ x ∈ req) ∧ (∀ x ∈ req, x ∈ S) ∧ (∀ x ∈ seq, x ∈ S) ∧
  seq.Nodup ∧ (∀ a ∈ seq, ∀ b ∈ afterOf a, b ∈ S → [b, a].Sublist seq)

theorem sequenceLoop_sound (S : List Key) (afterOf : Key → List Key) :
    ∀ (fuel : Nat) (req seq out : List Key), SeqInv S afterOf req seq →
      sequenceLoop afterOf fuel req seq = some out →
      (∀ x ∈ S, x ∈ out) ∧ (∀ x ∈ out, x ∈ S) ∧ out.Nodup ∧
        (∀ a ∈ out, ∀ b ∈ afterOf a, b ∈ S → [b, a].Sublist out) := by
  intro fuel
  induction fuel with
  | zero =>
    intro req seq out hinv hrun
    match req with
    | [] =>
      have : seq = out := by simpa [sequenceLoop] using hrun
      subst this
      obtain ⟨h1, _, h3, h4, h5⟩ := hinv
      exact ⟨fun x hx => (h1 x hx).resolve_right (by simp), h3, h4, h5⟩
    | _ :: _ => simp [sequenceLoop] at hrun
  | succ fuel ih =>
    intro req seq out hinv hrun
    match req with
    | [] =>
      have : seq = out := by simpa [sequenceLoop] using hrun
      subst this
      obtain ⟨h1, _, h3, h4, h5⟩ := hinv
      exact ⟨fun x hx => (h1 x hx).resolve_right (by simp), h3, h4, h5⟩
    | stage :: rest =>
      obtain ⟨h1, h2, h3, h4, h5⟩ := hinv
      by_cases hs : stage ∈ seq
      · refine ih rest seq out ⟨?_, ?_, h3, h4, h5⟩ (by simpa [sequenceLoop, hs] using hrun)
        · intro x hx
          rcases h1 x hx with hx' | hx'
          · exact Or.inl hx'
          · rcases List.mem_cons.mp hx' with hx' | hx'
            · exact Or.inl (hx' ▸ hs)
            · exact Or.inr hx'
        · intro x hx; exact h2 x (List.mem_cons_of_mem _ hx)
      · set P := (afterOf stage).filter
          (fun a => decide (a ∈ stage :: rest ∧ a ∉ seq)) with hP
        by_cases hins : P.isEmpty
        -- no insertion: the focused stage is appended to the output
        · have hflag : (insertLoop (afterOf stage) (stage :: rest) seq).2 = false := by
            rw [insertLoop_eq]; simpa [hP] using hins
          have hrun' : sequenceLoop afterOf fuel rest (seq ++ [stage]) = some out := by
            have := hrun
            simp only [sequenceLoop, if_neg hs] at this
            rwa [if_neg (by simp [hflag])] at this
          have hstageS : stage ∈ S := h2 stage (by simp)
          have hpredseq : ∀ b ∈ afterOf stage, b ∈ S → b ∈ seq := by
            intro b hb hbS
            have hnone : ¬ (b ∈ stage :: rest ∧ b ∉ seq) := by
              intro hcontra
              have : b ∈ P := by
                rw [hP, List.mem_filter]
                exact ⟨hb, by simpa using hcontra⟩
              rw [List.isEmpty_iff] at hins
              simp [hins] at this
            rcases h1 b hbS with hbseq | hbreq
            · exact hbseq
            · by_contra hbs
              exact hnone ⟨hbreq, hbs⟩
          refine ih rest (seq ++ [stage]) out ⟨?_, ?_, ?_, ?_, ?_⟩ hrun'
          · intro x hx
            rcases h1 x hx with hx' | hx'
            · exact Or.inl (List.mem_append_left _ hx')
            · rcases List.mem_cons.mp hx' with hx' | hx'
              · exact Or.inl (by simp [hx'])
              · exact Or.inr hx'
          · intro x hx; exact h2 x (List.mem_cons_of_mem _ hx)
          · intro x hx
            rcases List.mem_append.mp hx with hx' | hx'
            · exact h3 x hx'
            · simp at hx'; exact hx' ▸ hstageS
          · simpa [List.nodup_append, h4] using hs
          · intro a ha b hb hbS
            rcases List.mem_append.mp ha with ha' | ha'
            · exact (h5 a ha' b hb hbS).trans (List.sublist_append_left _ _)
            · simp at ha'
              subst ha'
              have hbseq : b ∈ seq := hpredseq b hb hbS
              have hsub : List.Sublist [b] seq := List.singleton_sublist.mpr hbseq
              exact hsub.append (List.Sublist.refl [a])
        -- insertion happened: predecessors are pushed onto the front
        · have hflag : (insertLoop (afterOf stage) (stage :: rest) seq).2 = true := by
            rw [insertLoop_eq]; simpa [hP] using hins
          have hreq1 : (insertLoop (afterOf stage) (stage :: rest) seq).1 =
              P.reverse ++ stage :: rest := by
            rw [insertLoop_eq]
          have hrun' : sequenceLoop afterOf fuel (P.reverse ++ stage :: rest) seq = some out := by
            have := hrun
            simp only [sequenceLoop, if_neg hs] at this
            rwa [if_pos (by simp [hflag]), hreq1] at this
          refine ih _ seq out ⟨?_, ?_, h3, h4, h5⟩ hrun'
          · intro x hx
            rcases h1 x hx with hx' | hx'
            · exact Or.inl hx'
            · exact Or.inr (List.mem_append_right _ hx')
          · intro x hx
            rcases List.mem_append.mp hx with hx' | hx'
            · have : x ∈ P := List.mem_reverse.mp hx'
              rw [hP, List.mem_filter] at this
              have := of_decide_eq_true this.2
              exact h2 x this.1
            · exact h2 x hx'

/-- Acyclicity of the `after` relation restricted to the selected stages,
witnessed by a topological ranking: every declared edge goes strictly down
in rank.  For a finite graph this is equivalent to the absence of cycles. -/
def EdgeRank (S : List Key) (afterOf : Key → List Key) (rank : Key → Nat) : Prop :=
  ∀ a ∈ S, ∀ b ∈ S, b ∈ afterOf a → rank b < rank a

/-- Processing the head of the working list to completion: after finitely
many steps the head has been sequenced and the loop continues on the rest
of the list; every newly sequenced stage is the head itself or a selected
stage of strictly smaller rank. -/
def ProcHead (S : List Key) (afterOf : Key → List Key) (rank : Key → Nat) (r : Nat) : Prop :=
  ∀ (h : Key) (rest seq : List Key), (∀ x ∈ h :: rest, x ∈ S) →
    (h ∉ seq → rank h ≤ r) →
    ∃ f seq',
      (∀ g, sequenceLoop afterOf (g + f) (h :: rest) seq = sequenceLoop afterOf g rest seq') ∧
      (∀ x ∈ seq, x ∈ seq') ∧ h ∈ seq' ∧
      (∀ x ∈ seq', x ∈ seq ∨ x = h ∨ (x ∈ S ∧ rank x < rank h))

/-- Processing a block of stages at the front of the working list. -/
def ProcList (S : List Key) (afterOf : Key → List Key) (rank : Key → Nat) (r : Nat) : Prop :=
  ∀ (ps rest seq : List Key), (∀ x ∈ ps ++ rest, x ∈ S) →
    (∀ p ∈ ps, p ∉ seq → rank p ≤ r) →
    ∃ f seq',
      (∀ g, sequenceLoop afterOf (g + f) (ps ++ rest) seq = sequenceLoop afterOf g rest seq') ∧
      (∀ x ∈ seq, x ∈ seq') ∧ (∀ p ∈ ps, p ∈ seq') ∧
      (∀ x ∈ seq', x ∈ seq ∨ ∃ p ∈ ps, x = p ∨ (x ∈ S ∧ rank x < rank p))

theorem procList_of_procHead {S : List Key} {afterOf : Key → List Key} {rank : Key → Nat}
    {r : Nat} (hph : ProcHead S afterOf rank r) : ProcList S afterOf rank r := by
  intro ps
  induction ps with
  | nil =>
    intro rest seq _ _
    exact ⟨0, seq, fun g => rfl, fun x hx => hx, by simp, fun x hx => Or.inl hx⟩
  | cons p ps ih =>
    intro rest seq hS hrk
    obtain ⟨f₁, seq₁, hstep₁, hsub₁, hp₁, hnew₁⟩ :=
      hph p (ps ++ rest) seq (by simpa using hS) (fun hp => hrk p (by simp) hp)
    obtain ⟨f₂, seq₂, hstep₂, hsub₂, hall₂, hnew₂⟩ :=
      ih rest seq₁ (fun x hx => hS x (List.mem_cons_of_mem _ hx))
        (fun q hq hq₁ => hrk q (List.mem_cons_of_mem _ hq) (fun hq' => hq₁ (hsub₁ q hq')))
    refine ⟨f₁ + f₂, seq₂, ?_, fun x hx => hsub₂ x (hsub₁ x hx), ?_, ?_⟩
    · intro g
      have harith : g + (f₁ + f₂) = (g + f₂) + f₁ := by omega
      rw [harith]
      calc sequenceLoop afterOf ((g + f₂) + f₁) ((p :: ps) ++ rest) seq
          = sequenceLoop afterOf (g + f₂) (ps ++ rest) seq₁ := hstep₁ (g + f₂)
        _ = sequenceLoop afterOf g rest seq₂ := hstep₂ g
    · intro q hq
      rcases List.mem_cons.mp hq with hq | hq
      · exact hq ▸ hsub₂ p hp₁
      · exact hall₂ q hq
    · intro x hx
      rcases hnew₂ x hx with hx₁ | ⟨q, hq, hcase⟩
      · rcases hnew₁ x hx₁ with hx₂ | hx₂ | hx₂
        · exact Or.inl hx₂
        · exact Or.inr ⟨p, by simp, Or.inl hx₂⟩
        · exact Or.inr ⟨p, by simp, Or.inr hx₂⟩
      · exact Or.inr ⟨q, List.mem_cons_of_mem _ hq, hcase⟩

theorem procHead_all {S : List Key} {afterOf : Key → List Key} {rank : Key → Nat}
    (hrank : EdgeRank S afterOf rank) : ∀ r, ProcHead S afterOf rank r := by
  intro r
  induction r using Nat.strong_induction_on with
  | _ r ih =>
    intro h rest seq hS hr
    by_cases hs : h ∈ seq
    · refine ⟨1, seq, ?_, fun x hx => hx, hs, fun x hx => Or.inl hx⟩
      intro g
      simp [sequenceLoop, hs]
    · have hhr : rank h ≤ r := hr hs
      have hhS : h ∈ S := hS h (by simp)
      set P := (afterOf h).filter (fun a => decide (a ∈ h :: rest ∧ a ∉ seq)) with hPdef
      have hPprops : ∀ p ∈ P, p ∈ afterOf h ∧ p ∈ S ∧ p ∉ seq ∧ rank p < rank h := by
        intro p hp
        rw [hPdef, List.mem_filter] at hp
        obtain ⟨hpa, hpc⟩ := hp
        have hpc' := of_decide_eq_true hpc
        have hpS : p ∈ S := hS p hpc'.1
        exact ⟨hpa, hpS, hpc'.2, hrank h hhS p hpS hpa⟩
      by_cases hPe : P.isEmpty
      · -- the focused stage has no unsequenced selected predecessors: append it
        have hflag : (insertLoop (afterOf h) (h :: rest) seq).2 = false := by
          rw [insertLoop_eq]; simpa [hPdef] using hPe
        refine ⟨1, seq ++ [h], ?_, fun x hx => List.mem_append_left _ hx, by simp, ?_⟩
        · intro g
          simp only [sequenceLoop, if_neg hs]
          rw [if_neg (by simp [hflag])]
        · intro x hx
          rcases List.mem_append.mp hx with hx | hx
          · exact Or.inl hx
          · simp at hx; exact Or.inr (Or.inl hx)
      · -- predecessors get reinserted; process them first, then revisit the head
        have hrankpos : 1 ≤ rank h := by
          have hne : P ≠ [] := by
            intro hcontra; rw [hcontra] at hPe; simp at hPe
          obtain ⟨p, hp⟩ := List.exists_mem_of_ne_nil P hne
          have := (hPprops p hp).2.2.2
          omega
        have hpl : ProcList S afterOf rank (rank h - 1) :=
          procList_of_procHead (ih (rank h - 1) (by omega))
        obtain ⟨f₁, seq₁, hstep₁, hsub₁, hall₁, hnew₁⟩ :=
          hpl P.reverse (h :: rest) seq
            (by
              intro x hx
              rcases List.mem_append.mp hx with hx | hx
              · exact (hPprops x (List.mem_reverse.mp hx)).2.1
              · exact hS x hx)
            (fun p hp _ => by
              have := (hPprops p (List.mem_reverse.mp hp)).2.2.2
              omega)
        have hnew₁' : ∀ x ∈ seq₁, x ∈ seq ∨ (x ∈ S ∧ rank x < rank h) := by
          intro x hx
          rcases hnew₁ x hx with hx | ⟨p, hp, hcase⟩
          · exact Or.inl hx
          · have hpP := hPprops p (List.mem_reverse.mp hp)
            rcases hcase with hxe | ⟨hxS, hxr⟩
            · exact Or.inr ⟨hxe ▸ hpP.2.1, hxe ▸ hpP.2.2.2⟩
            · exact Or.inr ⟨hxS, hxr.trans hpP.2.2.2⟩
        have hh₁ : h ∉ seq₁ := by
          intro hcontra
          rcases hnew₁' h hcontra with hc | hc
          · exact hs hc
          · omega
        have hP₁ : (afterOf h).filter (fun a => decide (a ∈ h :: rest ∧ a ∉ seq₁)) = [] := by
          rw [List.filter_eq_nil_iff]
          intro b hb
          simp only [decide_eq_true_eq, not_and, not_not]
          intro hbmem
          by_contra hbs
          have hbseq : b ∉ seq := fun hb' => hbs (hsub₁ b hb')
          have hbP : b ∈ P := by
            rw [hPdef, List.mem_filter]
            exact ⟨hb, by simp [hbmem, hbseq]⟩
          exact hbs (hall₁ b (List.mem_reverse.mpr hbP))
        have hflag₁ : (insertLoop (afterOf h) (h :: rest) seq₁).2 = false := by
          rw [insertLoop_eq, hP₁]; rfl
        have hflag₀ : (insertLoop (afterOf h) (h :: rest) seq).2 = true := by
          rw [insertLoop_eq]
          simpa [hPdef] using hPe
        have hreq₀ : (insertLoop (afterOf h) (h :: rest) seq).1 = P.reverse ++ h :: rest := by
          rw [insertLoop_eq, hPdef]
        refine ⟨f₁ + 2, seq₁ ++ [h], ?_, fun x hx => List.mem_append_left _ (hsub₁ x hx),
          by simp, ?_⟩
        · intro g
          have harith : g + (f₁ + 2) = (((g + 1) + f₁) + 1) := by omega
          rw [harith]
          have hstepA : sequenceLoop afterOf ((((g + 1) + f₁)) + 1) (h :: rest) seq =
              sequenceLoop afterOf ((g + 1) + f₁) (P.reverse ++ h :: rest) seq := by
            simp only [sequenceLoop, if_neg hs]
            rw [if_pos (by simp [hflag₀]), hreq₀]
          have hstepB := hstep₁ (g + 1)
          have hstepC : sequenceLoop afterOf (g + 1) (h :: rest) seq₁ =
              sequenceLoop afterOf g rest (seq₁ ++ [h]) := by
            simp only [sequenceLoop, if_neg hh₁]
            rw [if_neg (by simp [hflag₁])]
          rw [hstepA, hstepB, hstepC]
        · intro x hx
          rcases List.mem_append.mp hx with hx | hx
          · rcases hnew₁' x hx with hc | hc
            · exact Or.inl hc
            · exact Or.inr (Or.inr hc)
          · simp at hx; exact Or.inr (Or.inl hx)

/-- Total correctness of the sequencing loop on an acyclic selected set:
some fuel makes it return a result. -/
theorem sequenceLoop_total {S : List Key} {afterOf : Key → List Key} {rank : Key → Nat}
    (hrank : EdgeRank S afterOf rank) :
    ∃ fuel out, sequenceLoop afterOf fuel S [] = some out := by
  have hpl : ProcList S afterOf rank ((S.map rank).sum) :=
    procList_of_procHead (procHead_all hrank _)
  obtain ⟨f, seq', hstep, -, -, -⟩ :=
    hpl S [] [] (by simp)
      (fun p hp _ => List.single_le_sum (fun x _ => Nat.zero_le x) _ (List.mem_map_of_mem rank hp))
  refine ⟨0 + f, seq', ?_⟩
  have := hstep 0
  rw [List.append_nil] at this
  rw [this]
  rfl

/-! ## Claim C1 -/

/-- A small concrete stage graph used to exercise the sequencer: stage
("k","c") is declared `after` both ("k","a") and ("k","b"). -/
def exS : List Key := [("k", "c"), ("k", "a"), ("k", "b")]

def exAfter : Key → List Key := fun k => if k = ("k", "c") then [("k", "a"), ("k", "b")] else []

def exRank : Key → Nat := fun k => if k = ("k", "c") then 1 else 0

/-- C1, counterexample to the order-preservation part of the claim.  When
the two unsequenced predecessors ("k","a"), ("k","b") of the focused stage
("k","c") are reinserted at the front of the working list, the front of
the new working list reads ("k","b"), ("k","a"): the REVERSE of the order
in which the `after` set iterates them (which here coincides with their
relative order in the working list), not that order itself, because each
`required_stages.insert(0, ...)` pushes onto position 0.  Consequently the
final sequence is [("k","b"), ("k","a"), ("k","c")], not
[("k","a"), ("k","b"), ("k","c")]. -/
theorem claim1_counterexample :
    (insertLoop [("k", "a"), ("k", "b")] exS []).1 =
      [("k", "b"), ("k", "a"), ("k", "c"), ("k", "a"), ("k", "b")] ∧
    (insertLoop [("k", "a"), ("k", "b")] exS []).1 ≠
      [("k", "a"), ("k", "b")] ++ exS ∧
    sequenceLoop exAfter 10 exS [] = some [("k", "b"), ("k", "a"), ("k", "c")] ∧
    sequenceLoop exAfter 10 exS [] ≠ some [("k", "a"), ("k", "b"), ("k", "c")] := by
  refine ⟨by decide, by decide, by decide, by decide⟩

/-- C1 (amended): for every stage graph whose `after` relation restricted
to the selected stages is acyclic (witnessed by a topological ranking),
the sequencer terminates and produces a single linear ordering of the
selected stages in which, for every declared edge A `after` B with both
selected, B appears before A; and when several unsequenced
`after`-predecessors of the focused stage are reinserted at the front of
the working list, they appear there in REVERSE of the order in which the
`after` set iterates them. -/
theorem claim1_sequencer (S : List Key) (afterOf : Key → List Key) (rank : Key → Nat)
    (hrank : EdgeRank S afterOf rank) :
    (∃ fuel out, sequenceLoop afterOf fuel S [] = some out ∧
      out.Nodup ∧ (∀ x, x ∈ out ↔ x ∈ S) ∧
      (∀ a b, a ∈ out → b ∈ afterOf a → b ∈ S → List.Sublist [b, a] out)) ∧
    (∀ afters req seq, insertLoop afters req seq =
      (((afters.filter (fun a => decide (a ∈ req ∧ a ∉ seq))).reverse) ++ req,
        !((afters.filter (fun a => decide (a ∈ req ∧ a ∉ seq))).isEmpty))) := by
  constructor
  · obtain ⟨fuel, out, hrun⟩ := sequenceLoop_total hrank
    have hinv : SeqInv S afterOf S [] := by
      refine ⟨fun x hx => Or.inr hx, fun x hx => hx, by simp, List.nodup_nil, by simp⟩
    obtain ⟨hcompl, hsoundm, hnd, hord⟩ := sequenceLoop_sound S afterOf fuel S [] out hinv hrun
    exact ⟨fuel, out, hrun, hnd, fun x => ⟨hsoundm x, hcompl x⟩,
      fun a b ha hb hbS => hord a ha b hb hbS⟩
  · exact insertLoop_eq

/-- C1 witness: the amended theorem applied to the concrete acyclic graph
`exS` / `exAfter`, with the ranking hypothesis discharged by computation. -/
theorem claim1_sequencer_witness :
    ∃ fuel out, sequenceLoop exAfter fuel exS [] = some out ∧
      out.Nodup ∧ (∀ x, x ∈ out ↔ x ∈ exS) ∧
      (∀ a b, a ∈ out → b ∈ exAfter a → b ∈ exS → List.Sublist [b, a] out) :=
  (claim1_sequencer exS exAfter exRank (by unfold EdgeRank; decide)).1

/-! ## Run controller (main.py, `check_conditions` lines 318-338, run loop lines 340-346) -/

/-- Outcome of one stage's `check()`: `pass` (returned True), `fail`
(returned False), `raised` (raised StepFailedError). -/
inductive CheckOutcome
  | pass
  | fail
  | raised
deriving DecidableEq

def checkFailed : CheckOutcome → Bool
  | .pass => false
  | .fail => true
  | .raised => true

/-- The check-phase loop.  Returns (checks invoked, in order; stages whose
conditions were not met, in order).  Both a False result and a raised
StepFailedError append the stage to the failure list, and the loop keeps
going either way. -/
def check_conditions (checkOf : Key → CheckOutcome) : List Key → List Key × List Key
  | [] => ([], [])
  | s :: rest =>
    let r := check_conditions checkOf rest
    if checkFailed (checkOf s) then (s :: r.1, s :: r.2) else (s :: r.1, r.2)

/-- The run-phase loop.  `runOf s = none` models a successful `run()`,
`some msg` a raised StepFailedError.  Returns the stages whose `run` was
invoked (in order) and the first failure, if any. -/
def run_phase (runOf : Key → Option String) : List Key → List Key × Option (Key × String)
  | [] => ([], none)
  | s :: rest =>
    match runOf s with
    | none => let r := run_phase runOf rest; (s :: r.1, r.2)
    | some msg => ([s], some (s, msg))

/-- The two-phase run controller of `main`: check everything, abort with
exit status 1 when any check failed, otherwise run in sequence order until
the first StepFailedError.  Result: (checks invoked, failed checks, runs
invoked, exit status). -/
def runController (checkOf : Key → CheckOutcome) (runOf : Key → Option String)
    (seqd : List Key) : List Key × List Key × List Key × Nat :=
  if (check_conditions checkOf seqd).2.isEmpty then
    ((check_conditions checkOf seqd).1, (check_conditions checkOf seqd).2,
      (run_phase runOf seqd).1,
      match (run_phase runOf seqd).2 with | none => 0 | some _ => 1)
  else ((check_conditions checkOf seqd).1, (check_conditions checkOf seqd).2, [], 1)

theorem check_conditions_fst (checkOf : Key → CheckOutcome) :
    ∀ seqd : List Key, (check_conditions checkOf seqd).1 = seqd := by
  intro seqd
  induction seqd with
  | nil => rfl
  | cons s rest ih =>
    by_cases h : checkFailed (checkOf s) <;> simp [check_conditions, h, ih]

theorem check_conditions_snd (checkOf : Key → CheckOutcome) :
    ∀ seqd : List Key,
      (check_conditions checkOf seqd).2 = seqd.filter (fun s => checkFailed (checkOf s)) := by
  intro seqd
  induction seqd with
  | nil => rfl
  | cons s rest ih =>
    by_cases h : checkFailed (checkOf s) <;> simp [check_conditions, List.filter_cons, h, ih]

theorem run_phase_ok (runOf : Key → Option String) :
    ∀ seqd : List Key, (run_phase runOf seqd).2 = none →
      (run_phase runOf seqd).1 = seqd ∧ ∀ x ∈ seqd, runOf x = none := by
  intro seqd
  induction seqd with
  | nil => intro _; exact ⟨rfl, by simp⟩
  | cons s rest ih =>
    intro h
    cases hrs : runOf s with
    | none =>
      simp only [run_phase, hrs] at h ⊢
      obtain ⟨h1, h2⟩ := ih h
      refine ⟨by rw [h1], ?_⟩
      intro x hx
      rcases List.mem_cons.mp hx with hx | hx
      · exact hx ▸ hrs
      · exact h2 x hx
    | some msg => simp [run_phase, hrs] at h

theorem run_phase_failure (runOf : Key → Option String) :
    ∀ (seqd : List Key) (s : Key) (msg : String),
      (run_phase runOf seqd).2 = some (s, msg) →
      ∃ pre post, seqd = pre ++ s :: post ∧ (∀ x ∈ pre, runOf x = none) ∧
        runOf s = some msg ∧ (run_phase runOf seqd).1 = pre ++ [s] := by
  intro seqd
  induction seqd with
  | nil => intro s msg h; simp [run_phase] at h
  | cons t rest ih =>
    intro s msg h
    cases hrt : runOf t with
    | none =>
      simp only [run_phase, hrt] at h ⊢
      obtain ⟨pre, post, h1, h2, h3, h4⟩ := ih s msg h
      refine ⟨t :: pre, post, by simp [h1], ?_, h3, by simp [h4]⟩
      intro x hx
      rcases List.mem_cons.mp hx with hx | hx
      · exact hx ▸ hrt
      · exact h2 x hx
    | some m =>
      simp only [run_phase, hrt] at h ⊢
      have hsm : t = s ∧ m = msg := by simpa using h
      obtain ⟨hs, hm⟩ := hsm
      subst hs; subst hm
      exact ⟨[], rest, by simp, by simp, hrt, by simp⟩

/-! ## Claim C2 -/

/-- C2: the check phase invokes every sequenced stage's check even after
earlier failures, and collects exactly the stages whose check failed or
raised, in sequence order; if any failed, the run phase is not entered
(exit 1, no run invoked); otherwise stages run strictly in sequence order
and the first StepFailedError stops the process with exit status 1, no
later run being invoked. -/
theorem claim2_runController (checkOf : Key → CheckOutcome) (runOf : Key → Option String)
    (seqd : List Key) :
    (check_conditions checkOf seqd).1 = seqd ∧
    (check_conditions checkOf seqd).2 = seqd.filter (fun s => checkFailed (checkOf s)) ∧
    ((check_conditions checkOf seqd).2 ≠ [] →
      runController checkOf runOf seqd = (seqd, (check_conditions checkOf seqd).2, [], 1)) ∧
    ((check_conditions checkOf seqd).2 = [] →
      ((run_phase runOf seqd).2 = none →
        runController checkOf runOf seqd = (seqd, [], seqd, 0)) ∧
      (∀ s msg, (run_phase runOf seqd).2 = some (s, msg) →
        ∃ pre post, seqd = pre ++ s :: post ∧ (∀ x ∈ pre, runOf x = none) ∧
          runOf s = some msg ∧
          runController checkOf runOf seqd = (seqd, [], pre ++ [s], 1))) := by
  refine ⟨check_conditions_fst checkOf seqd, check_conditions_snd checkOf seqd, ?_, ?_⟩
  · intro hne
    unfold runController
    rw [if_neg (by simpa [List.isEmpty_iff] using hne), check_conditions_fst]
  · intro hemp
    constructor
    · intro hok
      obtain ⟨h1, _⟩ := run_phase_ok runOf seqd hok
      unfold runController
      rw [if_pos (by simp [List.isEmpty_iff, hemp]), check_conditions_fst, hemp, h1, hok]
    · intro s msg hfail
      obtain ⟨pre, post, h1, h2, h3, h4⟩ := run_phase_failure runOf seqd s msg hfail
      refine ⟨pre, post, h1, h2, h3, ?_⟩
      unfold runController
      rw [if_pos (by simp [List.isEmpty_iff, hemp]), check_conditions_fst, hemp, h4, hfail]

def exCheck : Key → CheckOutcome := fun k => if k = ("a", "x") then .pass else .fail

def exRun : Key → Option String := fun _ => none

/-- C2 witness: with a concrete pair of stages where the second one's
check fails, the controller reports the failure and invokes no run. -/
theorem claim2_runController_witness :
    runController exCheck exRun [("a", "x"), ("b", "y")] =
      ([("a", "x"), ("b", "y")], [("b", "y")], [], 1) := by
  have h := (claim2_runController exCheck exRun [("a", "x"), ("b", "y")]).2.2.1 (by decide)
  rw [h]
  decide

/-! ## Requires closure (main.py, lines 264-281)

The loop pops the front of `requested_stages`, adds it to
`required_stages_set`, and walks its `requires` references: a reference
naming a stage absent from the graph is a fatal error naming the missing
stage and its requirer; a reference not yet in the required set is
appended to the working list. -/

/-- One pop's inner loop over `stageset[stage].requires`. -/
def procRequires (keys acc : List Key) (requirer : Key) : List Key → Except (Key × Key) (List Key)
  | [] => .ok []
  | r :: rs =>
    if r ∈ keys then
      if r ∈ acc then procRequires keys acc requirer rs
      else
        match procRequires keys acc requirer rs with
        | .ok l => .ok (r :: l)
        | .error e => .error e
    else .error (r, requirer)

/-- The `while requested_stages:` closure loop, fuelled. -/
def closure (keys : List Key) (requiresOf : Key → List Key) :
    Nat → List Key → List Key → Option (Except (Key × Key) (List Key))
  | _, [], acc => some (.ok acc)
  | 0, _ :: _, _ => none
  | fuel + 1, stage :: rest, acc =>
    match procRequires keys (if stage ∈ acc then acc else acc ++ [stage]) stage
        (requiresOf stage) with
    | .error e => some (.error e)
    | .ok app =>
      closure keys requiresOf fuel (rest ++ app) (if stage ∈ acc then acc else acc ++ [stage])

theorem procRequires_ok_char (keys acc : List Key) (requirer : Key) :
    ∀ rs app, procRequires keys acc requirer rs = .ok app →
      (∀ r ∈ rs, r ∈ keys) ∧ app = rs.filter (fun r => decide (r ∉ acc)) := by
  intro rs
  induction rs with
  | nil =>
    intro app h
    simp only [procRequires, Except.ok.injEq] at h
    exact ⟨by simp, by simp [← h]⟩
  | cons r rs ih =>
    intro app h
    by_cases hk : r ∈ keys
    · by_cases ha : r ∈ acc
      · simp only [procRequires, if_pos hk, if_pos ha] at h
        obtain ⟨h1, h2⟩ := ih app h
        refine ⟨?_, by rw [h2, List.filter_cons]; simp [ha]⟩
        intro r' hr'
        rcases List.mem_cons.mp hr' with hr' | hr'
        · exact hr' ▸ hk
        · exact h1 r' hr'
      · simp only [procRequires, if_pos hk, if_neg ha] at h
        cases hrec : procRequires keys acc requirer rs with
        | ok l =>
          rw [hrec] at h
          simp only [Except.ok.injEq] at h
          obtain ⟨h1, h2⟩ := ih l hrec
          refine ⟨?_, by rw [← h, h2, List.filter_cons]; simp [ha]⟩
          intro r' hr'
          rcases List.mem_cons.mp hr' with hr' | hr'
          · exact hr' ▸ hk
          · exact h1 r' hr'
        | error e => rw [hrec] at h; simp at h
    · simp [procRequires, if_neg hk] at h

theorem procRequires_error_char (keys acc : List Key) (requirer : Key) :
    ∀ rs e, procRequires keys acc requirer rs = .error e →
      e.2 = requirer ∧ e.1 ∈ rs ∧ e.1 ∉ keys := by
  intro rs
  induction rs with
  | nil => intro e h; simp [procRequires] at h
  | cons r rs ih =>
    intro e h
    by_cases hk : r ∈ keys
    · by_cases ha : r ∈ acc
      · simp only [procRequires, if_pos hk, if_pos ha] at h
        obtain ⟨h1, h2, h3⟩ := ih e h
        exact ⟨h1, List.mem_cons_of_mem _ h2, h3⟩
      · simp only [procRequires, if_pos hk, if_neg ha] at h
        cases hrec : procRequires keys acc requirer rs with
        | ok l => rw [hrec] at h; simp at h
        | error e' =>
          rw [hrec] at h
          simp only [Except.error.injEq] at h
          obtain ⟨h1, h2, h3⟩ := ih e' hrec
          exact ⟨h ▸ h1, h ▸ List.mem_cons_of_mem _ h2, h ▸ h3⟩
    · simp only [procRequires, if_neg hk, Except.error.injEq] at h
      exact ⟨by simp [← h], by simp [← h], by simp [← h, hk]⟩

/-- Transitive requirement: reachable from the requested set along
`requires` references. -/
def Reaches (requiresOf : Key → List Key) (requested : List Key) (x : Key) : Prop :=
  ∃ s ∈ requested, Relation.ReflTransGen (fun a b => b ∈ requiresOf a) s x

theorem Reaches.step {requiresOf : Key → List Key} {requested : List Key} {x r : Key}
    (hx : Reaches requiresOf requested x) (hr : r ∈ requiresOf x) :
    Reaches requiresOf requested r := by
  obtain ⟨s, hs, hpath⟩ := hx
  exact ⟨s, hs, hpath.tail hr⟩

/-- Termination measure, first component: stages of the graph not yet in
the required set. -/
def numNew (keys acc : List Key) : Nat := (keys.filter (fun x => decide (x ∉ acc))).length

/-- Termination measure, second component: index of the first working-list
entry not yet in the required set (list length when there is none). -/
def firstNew (acc : List Key) : List Key → Nat
  | [] => 0
  | x :: rest => if x ∈ acc then firstNew acc rest + 1 else 0

theorem numNew_lt (keys acc : List Key) (x : Key) (hxk : x ∈ keys) (hxa : x ∉ acc) :
    numNew keys (acc ++ [x]) < numNew keys acc := by
  unfold numNew
  have hsub : List.Sublist (keys.filter (fun y => decide (y ∉ acc ++ [x])))
      (keys.filter (fun y => decide (y ∉ acc))) := by
    apply List.monotone_filter_right
    intro a ha
    simp only [decide_eq_true_eq] at ha ⊢
    intro hacc
    exact ha (List.mem_append_left _ hacc)
  rcases lt_or_eq_of_le hsub.length_le with h | h
  · exact h
  · exfalso
    have heq := hsub.eq_of_length h
    have hx1 : x ∈ keys.filter (fun y => decide (y ∉ acc)) := by
      rw [List.mem_filter]; exact ⟨hxk, by simpa using hxa⟩
    rw [← heq, List.mem_filter] at hx1
    simp at hx1

theorem firstNew_append_le (acc l app : List Key) (happ : ∀ y ∈ app, y ∉ acc) :
    firstNew acc (l ++ app) ≤ firstNew acc l := by
  induction l with
  | nil =>
    cases app with
    | nil => simp [firstNew]
    | cons y ys =>
      have hy : y ∉ acc := happ y (by simp)
      simp [firstNew, hy]
  | cons x l ih =>
    by_cases hx : x ∈ acc
    · show firstNew acc (x :: (l ++ app)) ≤ firstNew acc (x :: l)
      simp only [firstNew, if_pos hx]
      omega
    · show firstNew acc (x :: (l ++ app)) ≤ firstNew acc (x :: l)
      simp [firstNew, hx]

/-- Invariant of the closure loop relative to the original request: working
list and required set hold only existing, transitively required stages;
every requested stage is in the set or still queued; every `requires`
reference of a set member is in the set or still queued. -/
def ClosInv (keys : List Key) (requiresOf : Key → List Key) (requested : List Key)
    (wl acc : List Key) : Prop :=
  (∀ x ∈ wl, x ∈ keys ∧ Reaches requiresOf requested x) ∧
  (∀ x ∈ acc, x ∈ keys ∧ Reaches requiresOf requested x) ∧
  (∀ x ∈ requested, x ∈ acc ∨ x ∈ wl) ∧
  (∀ z ∈ acc, ∀ r ∈ requiresOf z, r ∈ acc ∨ r ∈ wl)

/-- What the closure loop guarantees about its result. -/
def ClosureProps (keys : List Key) (requiresOf : Key → List Key) (requested : List Key)
    (res : Except (Key × Key) (List Key)) : Prop :=
  (∀ acc, res = .ok acc →
    (∀ x ∈ requested, x ∈ acc) ∧ (∀ z ∈ acc, ∀ r ∈ requiresOf z, r ∈ acc) ∧
    (∀ x ∈ acc, x ∈ keys ∧ Reaches requiresOf requested x)) ∧
  (∀ e, res = .error e → e.1 ∈ requiresOf e.2 ∧ e.1 ∉ keys ∧ Reaches requiresOf requested e.2)

theorem closure_done (keys : List Key) (requiresOf : Key → List Key) (requested : List Key)
    (acc : List Key) (hinv : ClosInv keys requiresOf requested [] acc) :
    ∃ fuel res, closure keys requiresOf fuel [] acc = some res ∧
      ClosureProps keys requiresOf requested res := by
  refine ⟨0, .ok acc, rfl, ?_, ?_⟩
  · intro acc' h
    simp only [Except.ok.injEq] at h
    subst h
    obtain ⟨_, h2, h3, h4⟩ := hinv
    refine ⟨fun x hx => (h3 x hx).resolve_right (by simp), ?_, h2⟩
    intro z hz r hr
    exact (h4 z hz r hr).resolve_right (by simp)
  · intro e h; simp at h

theorem closure_error (keys : List Key) (requiresOf : Key → List Key) (requested : List Key)
    (stage : Key) (rest acc : List Key) (e : Key × Key)
    (hinv : ClosInv keys requiresOf requested (stage :: rest) acc)
    (hproc : procRequires keys (if stage ∈ acc then acc else acc ++ [stage]) stage
        (requiresOf stage) = .error e) :
    ∃ fuel res, closure keys requiresOf fuel (stage :: rest) acc = some res ∧
      ClosureProps keys requiresOf requested res := by
  refine ⟨1, .error e, ?_, ?_, ?_⟩
  · simp only [closure]
    rw [hproc]
  · intro acc' h; simp at h
  · intro e' h
    simp only [Except.error.injEq] at h
    subst h
    obtain ⟨h1, h2, h3⟩ := procRequires_error_char _ _ _ _ e hproc
    exact ⟨h1 ▸ h2, h3, h1 ▸ (hinv.1 stage (by simp)).2⟩

theorem closInv_maintain (keys : List Key) (requiresOf : Key → List Key) (requested : List Key)
    (stage : Key) (rest acc app : List Key)
    (hinv : ClosInv keys requiresOf requested (stage :: rest) acc)
    (hproc : procRequires keys (if stage ∈ acc then acc else acc ++ [stage]) stage
        (requiresOf stage) = .ok app) :
    ClosInv keys requiresOf requested (rest ++ app)
      (if stage ∈ acc then acc else acc ++ [stage]) := by
  obtain ⟨h1, h2, h3, h4⟩ := hinv
  obtain ⟨hk, ha⟩ := procRequires_ok_char _ _ _ _ app hproc
  have hstage := h1 stage (by simp)
  have hmem : ∀ x, (x ∈ if stage ∈ acc then acc else acc ++ [stage]) ↔ (x ∈ acc ∨ x = stage) := by
    intro x
    by_cases hs : stage ∈ acc
    · rw [if_pos hs]
      exact ⟨Or.inl, fun h => h.elim id (fun h => h ▸ hs)⟩
    · rw [if_neg hs]
      simp [List.mem_append]
  have happmem : ∀ x ∈ app, x ∈ requiresOf stage ∧
      ¬ (x ∈ if stage ∈ acc then acc else acc ++ [stage]) := by
    intro x hx
    rw [ha, List.mem_filter] at hx
    exact ⟨hx.1, by simpa using hx.2⟩
  refine ⟨?_, ?_, ?_, ?_⟩
  · intro x hx
    rcases List.mem_append.mp hx with hx | hx
    · exact h1 x (List.mem_cons_of_mem _ hx)
    · obtain ⟨hx1, _⟩ := happmem x hx
      exact ⟨hk x hx1, hstage.2.step hx1⟩
  · intro x hx
    rcases (hmem x).mp hx with hx | hx
    · exact h2 x hx
    · exact hx ▸ hstage
  · intro x hx
    rcases h3 x hx with hx' | hx'
    · exact Or.inl ((hmem x).mpr (Or.inl hx'))
    · rcases List.mem_cons.mp hx' with hx' | hx'
      · exact Or.inl ((hmem x).mpr (Or.inr hx'))
      · exact Or.inr (List.mem_append_left _ hx')
  · intro z hz r hr
    rcases (hmem z).mp hz with hz' | hz'
    · rcases h4 z hz' r hr with hr' | hr'
      · exact Or.inl ((hmem r).mpr (Or.inl hr'))
      · rcases List.mem_cons.mp hr' with hr' | hr'
        · exact Or.inl ((hmem r).mpr (Or.inr hr'))
        · exact Or.inr (List.mem_append_left _ hr')
    · subst hz'
      by_cases hra : r ∈ if z ∈ acc then acc else acc ++ [z]
      · exact Or.inl hra
      · refine Or.inr (List.mem_append_right _ ?_)
        rw [ha, List.mem_filter]
        exact ⟨hr, by simpa using hra⟩

theorem closure_go (keys : List Key) (requiresOf : Key → List Key) (requested : List Key) :
    ∀ (u p : Nat) (wl acc : List Key),
      numNew keys acc ≤ u → firstNew acc wl ≤ p →
      ClosInv keys requiresOf requested wl acc →
      ∃ fuel res, closure keys requiresOf fuel wl acc = some res ∧
        ClosureProps keys requiresOf requested res := by
  have hnum1 : ∀ (acc : List Key) (stage : Key), stage ∈ keys → stage ∉ acc →
      1 ≤ numNew keys acc := by
    intro acc stage hsk hsa
    have hmem : stage ∈ keys.filter (fun y => decide (y ∉ acc)) := by
      rw [List.mem_filter]
      exact ⟨hsk, by simpa using hsa⟩
    have := List.length_pos.mpr (List.ne_nil_of_mem hmem)
    unfold numNew
    omega
  -- the two recursive step arguments, shared between the inductions below
  have hstepIn : ∀ (stage : Key) (rest acc : List Key) (app : List Key)
      (hs : stage ∈ acc)
      (hproc : procRequires keys (if stage ∈ acc then acc else acc ++ [stage]) stage
          (requiresOf stage) = .ok app)
      (hnext : ∃ fuel res, closure keys requiresOf fuel (rest ++ app)
          (if stage ∈ acc then acc else acc ++ [stage]) = some res ∧
          ClosureProps keys requiresOf requested res),
      ∃ fuel res, closure keys requiresOf fuel (stage :: rest) acc = some res ∧
        ClosureProps keys requiresOf requested res := by
    intro stage rest acc app hs hproc hnext
    obtain ⟨fuel, res, hrun, hprops⟩ := hnext
    refine ⟨fuel + 1, res, ?_, hprops⟩
    simp only [closure]
    rw [hproc]
    rw [if_pos hs] at hrun ⊢
    exact hrun
  have hstepNew : ∀ (stage : Key) (rest acc : List Key) (app : List Key)
      (hs : stage ∉ acc)
      (hproc : procRequires keys (if stage ∈ acc then acc else acc ++ [stage]) stage
          (requiresOf stage) = .ok app)
      (hnext : ∃ fuel res, closure keys requiresOf fuel (rest ++ app)
          (if stage ∈ acc then acc else acc ++ [stage]) = some res ∧
          ClosureProps keys requiresOf requested res),
      ∃ fuel res, closure keys requiresOf fuel (stage :: rest) acc = some res ∧
        ClosureProps keys requiresOf requested res := by
    intro stage rest acc app hs hproc hnext
    obtain ⟨fuel, res, hrun, hprops⟩ := hnext
    refine ⟨fuel + 1, res, ?_, hprops⟩
    simp only [closure]
    rw [hproc]
    rw [if_neg hs] at hrun ⊢
    exact hrun
  intro u
  induction u with
  | zero =>
    intro p
    induction p with
    | zero =>
      intro wl acc hu hp hinv
      match wl with
      | [] => exact closure_done keys requiresOf requested acc hinv
      | stage :: rest =>
        by_cases hs : stage ∈ acc
        · simp [firstNew, hs] at hp
        · have := hnum1 acc stage (hinv.1 stage (by simp)).1 hs
          omega
    | succ p ihp =>
      intro wl acc hu hp hinv
      match wl with
      | [] => exact closure_done keys requiresOf requested acc hinv
      | stage :: rest =>
        by_cases hs : stage ∈ acc
        · cases hproc : procRequires keys (if stage ∈ acc then acc else acc ++ [stage]) stage
              (requiresOf stage) with
          | error e => exact closure_error keys requiresOf requested stage rest acc e hinv hproc
          | ok app =>
            refine hstepIn stage rest acc app hs hproc (ihp (rest ++ app) _ ?_ ?_
              (closInv_maintain keys requiresOf requested stage rest acc app hinv hproc))
            · rw [if_pos hs]; exact hu
            · rw [if_pos hs]
              have happ : ∀ y ∈ app, y ∉ acc := by
                intro y hy
                obtain ⟨-, h⟩ := procRequires_ok_char _ _ _ _ app hproc
                rw [h, List.mem_filter] at hy
                rw [if_pos hs] at hy
                simpa using hy.2
              have h1 := firstNew_append_le acc rest app happ
              have h2 : firstNew acc (stage :: rest) = firstNew acc rest + 1 := by
                simp [firstNew, hs]
              omega
        · have := hnum1 acc stage (hinv.1 stage (by simp)).1 hs
          omega
  | succ u ihu =>
    intro p
    induction p with
    | zero =>
      intro wl acc hu hp hinv
      match wl with
      | [] => exact closure_done keys requiresOf requested acc hinv
      | stage :: rest =>
        by_cases hs : stage ∈ acc
        · simp [firstNew, hs] at hp
        · cases hproc : procRequires keys (if stage ∈ acc then acc else acc ++ [stage]) stage
              (requiresOf stage) with
          | error e => exact closure_error keys requiresOf requested stage rest acc e hinv hproc
          | ok app =>
            refine hstepNew stage rest acc app hs hproc (ihu _ (rest ++ app) _ ?_ le_rfl
              (closInv_maintain keys requiresOf requested stage rest acc app hinv hproc))
            rw [if_neg hs]
            have := numNew_lt keys acc stage (hinv.1 stage (by simp)).1 hs
            omega
    | succ p ihp =>
      intro wl acc hu hp hinv
      match wl with
      | [] => exact closure_done keys requiresOf requested acc hinv
      | stage :: rest =>
        by_cases hs : stage ∈ acc
        · cases hproc : procRequires keys (if stage ∈ acc then acc else acc ++ [stage]) stage
              (requiresOf stage) with
          | error e => exact closure_error keys requiresOf requested stage rest acc e hinv hproc
          | ok app =>
            refine hstepIn stage rest acc app hs hproc (ihp (rest ++ app) _ ?_ ?_
              (closInv_maintain keys requiresOf requested stage rest acc app hinv hproc))
            · rw [if_pos hs]; exact hu
            · rw [if_pos hs]
              have happ : ∀ y ∈ app, y ∉ acc := by
                intro y hy
                obtain ⟨-, h⟩ := procRequires_ok_char _ _ _ _ app hproc
                rw [h, List.mem_filter] at hy
                rw [if_pos hs] at hy
                simpa using hy.2
              have h1 := firstNew_append_le acc rest app happ
              have h2 : firstNew acc (stage :: rest) = firstNew acc rest + 1 := by
                simp [firstNew, hs]
              omega
        · cases hproc : procRequires keys (if stage ∈ acc then acc else acc ++ [stage]) stage
              (requiresOf stage) with
          | error e => exact closure_error keys requiresOf requested stage rest acc e hinv hproc
          | ok app =>
            refine hstepNew stage rest acc app hs hproc (ihu _ (rest ++ app) _ ?_ le_rfl
              (closInv_maintain keys requiresOf requested stage rest acc app hinv hproc))
            rw [if_neg hs]
            have := numNew_lt keys acc stage (hinv.1 stage (by simp)).1 hs
            omega

/-- Outcome of one process invocation: exit status, configuration error
(missing stage, requirer) when one was reported, failed checks, runs
invoked. -/
structure PipeOutcome where
  exitStatus : Nat
  configError : Option (Key × Key)
  failedChecks : List Key
  ran : List Key
deriving DecidableEq

/-- The end-to-end pipeline of `main`: requires-closure of the requested
set, re-sequencing to the natural (declaration) order, dependency
reordering, then the two-phase run controller.  A configuration error
aborts with exit status 1 before any check or run. -/
def pipeline (keys : List Key) (requiresOf afterOf : Key → List Key)
    (checkOf : Key → CheckOutcome) (runOf : Key → Option String)
    (requested : List Key) (fuel : Nat) : Option PipeOutcome :=
  match closure keys requiresOf fuel requested [] with
  | none => none
  | some (.error e) => some ⟨1, some e, [], []⟩
  | some (.ok acc) =>
    match sequenceLoop afterOf fuel (keys.filter (fun x => decide (x ∈ acc))) [] with
    | none => none
    | some seqd =>
      some ⟨(runController checkOf runOf seqd).2.2.2, none,
        (runController checkOf runOf seqd).2.1, (runController checkOf runOf seqd).2.2.1⟩

theorem count_one_of_nodup_mem {l : List Key} {x : Key} (hnd : l.Nodup) (hx : x ∈ l) :
    l.count x = 1 := by
  induction l with
  | nil => simp at hx
  | cons a l ih =>
    obtain ⟨hna, hndl⟩ := List.nodup_cons.mp hnd
    rw [List.count_cons]
    by_cases hxa : x = a
    · subst hxa
      have hz : l.count x = 0 := by
        rw [List.count_eq_zero]
        exact hna
      simp [hz]
    · have hxl : x ∈ l := by
        rcases List.mem_cons.mp hx with h | h
        · exact absurd h hxa
        · exact h
      rw [ih hndl hxl]
      have hax : ¬ a = x := fun h => hxa h.symm
      simp [hax]

theorem closure_ok_reaches (keys : List Key) (requiresOf : Key → List Key)
    (requested acc : List Key)
    (hsub : ∀ x ∈ requested, x ∈ acc)
    (hclosed : ∀ z ∈ acc, ∀ r ∈ requiresOf z, r ∈ acc) :
    ∀ x, Reaches requiresOf requested x → x ∈ acc := by
  rintro x ⟨s, hs, hpath⟩
  induction hpath with
  | refl => exact hsub s hs
  | tail _ hbc ih => exact hclosed _ ih _ hbc

/-! ## Claim C3 -/

/-- C3: when every `requires` reference of every stage reachable from the
requested set names an existing stage, the closure succeeds and the final
stage list (and any completed sequencing of it) contains each transitively
required stage exactly once; when some reachable stage's `requires` names
a missing stage, the process stops with a fatal configuration error naming
the missing stage and its requirer, with no stage checked or run. -/
theorem claim3_closure (keys requested : List Key) (requiresOf afterOf : Key → List Key)
    (hknd : keys.Nodup) (hreq : ∀ x ∈ requested, x ∈ keys) :
    ((∀ x, Reaches requiresOf requested x → ∀ r ∈ requiresOf x, r ∈ keys) →
      ∃ fuel acc, closure keys requiresOf fuel requested [] = some (.ok acc) ∧
        (∀ x, x ∈ acc ↔ Reaches requiresOf requested x) ∧
        (∀ x, Reaches requiresOf requested x →
          (keys.filter (fun y => decide (y ∈ acc))).count x = 1) ∧
        (∀ fuel2 out,
          sequenceLoop afterOf fuel2 (keys.filter (fun y => decide (y ∈ acc))) [] = some out →
          ∀ x, Reaches requiresOf requested x → out.count x = 1)) ∧
    ((∃ x, Reaches requiresOf requested x ∧ ∃ r ∈ requiresOf x, r ∉ keys) →
      ∀ checkOf runOf,
      ∃ fuel m rq, closure keys requiresOf fuel requested [] = some (.error (m, rq)) ∧
        m ∉ keys ∧ m ∈ requiresOf rq ∧ Reaches requiresOf requested rq ∧
        pipeline keys requiresOf afterOf checkOf runOf requested fuel =
          some ⟨1, some (m, rq), [], []⟩) := by
  have hinv0 : ClosInv keys requiresOf requested requested [] := by
    refine ⟨fun x hx => ⟨hreq x hx, ⟨x, hx, Relation.ReflTransGen.refl⟩⟩, ?_,
      fun x hx => Or.inr hx, ?_⟩
    · intro x hx; simp at hx
    · intro z hz; simp at hz
  obtain ⟨fuel, res, hrun, hok, herr⟩ :=
    closure_go keys requiresOf requested (numNew keys []) (firstNew [] requested)
      requested [] le_rfl le_rfl hinv0
  constructor
  · intro hpresent
    cases res with
    | error e =>
      obtain ⟨h1, h2, h3⟩ := herr e rfl
      exact absurd (hpresent e.2 h3 e.1 h1) h2
    | ok acc =>
      obtain ⟨hsub, hclosed, hsound⟩ := hok acc rfl
      have hcompl := closure_ok_reaches keys requiresOf requested acc hsub hclosed
      have hiff : ∀ x, x ∈ acc ↔ Reaches requiresOf requested x :=
        fun x => ⟨fun hx => (hsound x hx).2, hcompl x⟩
      have hfilter : ∀ x, Reaches requiresOf requested x →
          x ∈ keys.filter (fun y => decide (y ∈ acc)) := by
        intro x hx
        rw [List.mem_filter]
        exact ⟨(hsound x (hcompl x hx)).1, by simpa using hcompl x hx⟩
      refine ⟨fuel, acc, hrun, hiff, ?_, ?_⟩
      · intro x hx
        exact count_one_of_nodup_mem (hknd.filter _) (hfilter x hx)
      · intro fuel2 out hseq x hx
        have hinvS : SeqInv (keys.filter (fun y => decide (y ∈ acc))) afterOf
            (keys.filter (fun y => decide (y ∈ acc))) [] :=
          ⟨fun y hy => Or.inr hy, fun y hy => hy, by simp, List.nodup_nil, by simp⟩
        obtain ⟨hcm, _, hnd, _⟩ := sequenceLoop_sound _ afterOf fuel2 _ [] out hinvS hseq
        exact count_one_of_nodup_mem hnd (hcm x (hfilter x hx))
  · intro hmiss checkOf runOf
    cases res with
    | ok acc =>
      exfalso
      obtain ⟨hsub, hclosed, hsound⟩ := hok acc rfl
      have hcompl := closure_ok_reaches keys requiresOf requested acc hsub hclosed
      obtain ⟨x, hxr, r, hrm, hrk⟩ := hmiss
      exact hrk (hsound r (hclosed x (hcompl x hxr) r hrm)).1
    | error e =>
      obtain ⟨m, rq⟩ := e
      obtain ⟨h1, h2, h3⟩ := herr (m, rq) rfl
      refine ⟨fuel, m, rq, hrun, h2, h1, h3, ?_⟩
      simp [pipeline, hrun]

def exKeys : List Key := [("k", "fetch"), ("k", "prepare"), ("k", "build")]

def exReq : Key → List Key := fun k =>
  if k = ("k", "build") then [("k", "prepare")]
  else if k = ("k", "prepare") then [("k", "fetch")]
  else []

def exKeys2 : List Key := [("k", "build")]

def exReq2 : Key → List Key := fun k => if k = ("k", "build") then [("dtb", "build")] else []

/-- C3 witness: a concrete requires-chain is closed and counted exactly
once, and a concrete dangling `requires` reference yields the fatal
configuration error before anything runs. -/
theorem claim3_closure_witness :
    (∃ fuel acc, closure exKeys exReq fuel [("k", "build")] [] = some (.ok acc) ∧
      (∀ x, x ∈ acc ↔ Reaches exReq [("k", "build")] x) ∧
      (∀ x, Reaches exReq [("k", "build")] x →
        (exKeys.filter (fun y => decide (y ∈ acc))).count x = 1) ∧
      (∀ fuel2 out,
        sequenceLoop (fun _ => []) fuel2 (exKeys.filter (fun y => decide (y ∈ acc))) [] =
          some out →
        ∀ x, Reaches exReq [("k", "build")] x → out.count x = 1)) ∧
    (∃ fuel m rq, closure exKeys2 exReq2 fuel [("k", "build")] [] = some (.error (m, rq)) ∧
      m ∉ exKeys2 ∧ m ∈ exReq2 rq ∧ Reaches exReq2 [("k", "build")] rq ∧
      pipeline exKeys2 exReq2 (fun _ => []) (fun _ => .pass) (fun _ => none) [("k", "build")]
        fuel = some ⟨1, some (m, rq), [], []⟩) := by
  constructor
  · refine (claim3_closure exKeys [("k", "build")] exReq (fun _ => []) (by decide)
      (by decide)).1 ?_
    intro x _ r hr
    unfold exReq at hr
    by_cases h1 : x = ("k", "build")
    · rw [if_pos h1] at hr
      simp at hr
      subst hr
      decide
    · rw [if_neg h1] at hr
      by_cases h2 : x = ("k", "prepare")
      · rw [if_pos h2] at hr
        simp at hr
        subst hr
        decide
      · rw [if_neg h2] at hr
        simp at hr
  · refine (claim3_closure exKeys2 [("k", "build")] exReq2 (fun _ => []) (by decide)
      (by decide)).2 ?_ (fun _ => .pass) (fun _ => none)
    refine ⟨("k", "build"), ⟨("k", "build"), by simp, Relation.ReflTransGen.refl⟩,
      ("dtb", "build"), ?_, by decide⟩
    unfold exReq2
    simp

/-! ## Freshness tracker (builders/base.py, `import_source`, lines 388-429) -/

/-- A file as the change detector sees it: modification time, status-change
time, and content bytes (`st_size` is the content length). -/
structure FileData where
  mtime : Int
  ctime : Int
  content : List Nat
deriving DecidableEq

/-- Result of one `import_source` call: the returned boolean, whether the
content-hash fallback was consulted, and the target file afterwards. -/
structure ImportResult where
  changed : Bool
  usedHash : Bool
  target : Option FileData
deriving DecidableEq

/-- The change-detection and copy core of `import_source` for a present
local source (lines 398-429): a missing target is a change outright;
otherwise, unless told to ignore timestamps, an older target modification
or status-change time or a size difference is a change; only as the final
fallback are the streamed SHA-256 digests (modelled by the parameter
`hash`) compared.  On a change the source bytes are copied onto the
target, whose stat times become the copy time `now`; otherwise the target
is left untouched. -/
def import_source (hash : List Nat → Nat) (ignoreTimestamps : Bool) (now : Int)
    (src : FileData) (target : Option FileData) : ImportResult :=
  match target with
  | none => ⟨true, false, some ⟨now, now, src.content⟩⟩
  | some t =>
    if ¬ ignoreTimestamps = true ∧
        (t.mtime < src.mtime ∨ t.ctime < src.ctime ∨ t.content.length ≠ src.content.length) then
      ⟨true, false, some ⟨now, now, src.content⟩⟩
    else if hash src.content ≠ hash t.content then
      ⟨true, true, some ⟨now, now, src.content⟩⟩
    else
      ⟨false, true, some t⟩

/-! ## Claim C4 -/

/-- C4: importing into an absent target reports a change and copies the
source bytes; a second import of the unchanged source reports no change
and leaves the target untouched (given that the copy did not happen before
the source's own timestamps); detection short-circuits in the order
target-missing, then timestamps/size (unless ignored), and consults the
digests exactly when the earlier steps found nothing; a target reported
unchanged is never rewritten. -/
theorem claim4_import_source (hash : List Nat → Nat) (ignoreTimestamps : Bool)
    (now1 now2 : Int) (src : FileData)
    (h1 : src.mtime ≤ now1) (h2 : src.ctime ≤ now1) :
    (import_source hash ignoreTimestamps now1 src none =
      ⟨true, false, some ⟨now1, now1, src.content⟩⟩) ∧
    (import_source hash ignoreTimestamps now2 src (some ⟨now1, now1, src.content⟩) =
      ⟨false, true, some ⟨now1, now1, src.content⟩⟩) ∧
    (∀ t : FileData, ignoreTimestamps = false →
      (t.mtime < src.mtime ∨ t.ctime < src.ctime ∨ t.content.length ≠ src.content.length) →
      import_source hash ignoreTimestamps now2 src (some t) =
        ⟨true, false, some ⟨now2, now2, src.content⟩⟩) ∧
    (∀ t : FileData,
      (import_source hash ignoreTimestamps now2 src (some t)).usedHash = true ↔
        (ignoreTimestamps = true ∨
          ¬ (t.mtime < src.mtime ∨ t.ctime < src.ctime ∨
              t.content.length ≠ src.content.length))) ∧
    (∀ t : FileData, (import_source hash ignoreTimestamps now2 src (some t)).changed = false →
      (import_source hash ignoreTimestamps now2 src (some t)).target = some t) := by
  have hm : ¬ ((⟨now1, now1, src.content⟩ : FileData).mtime < src.mtime) := not_lt.mpr h1
  have hc : ¬ ((⟨now1, now1, src.content⟩ : FileData).ctime < src.ctime) := not_lt.mpr h2
  refine ⟨rfl, ?_, ?_, ?_, ?_⟩
  · simp [import_source, hm, hc]
  · intro t hig hts
    simp [import_source, hig, hts]
  · intro t
    by_cases hig : ignoreTimestamps = true
    · by_cases hh : hash src.content = hash t.content <;>
        simp [import_source, hig, hh]
    · by_cases hts : t.mtime < src.mtime ∨ t.ctime < src.ctime ∨
          t.content.length ≠ src.content.length
      · simp [import_source, hig, hts]
      · by_cases hh : hash src.content = hash t.content <;>
          simp [import_source, hig, hts, hh]
  · intro t
    by_cases hig : ignoreTimestamps = true <;>
      by_cases hts : t.mtime < src.mtime ∨ t.ctime < src.ctime ∨
          t.content.length ≠ src.content.length <;>
        by_cases hh : hash src.content = hash t.content <;>
          simp [import_source, hig, hts, hh]

/-- C4 witness: a concrete round trip with a sum digest stand-in. -/
theorem claim4_import_source_witness :
    import_source (fun l => l.sum) false 5 ⟨0, 0, [1, 2]⟩ none =
      ⟨true, false, some ⟨5, 5, [1, 2]⟩⟩ ∧
    import_source (fun l => l.sum) false 9 ⟨0, 0, [1, 2]⟩ (some ⟨5, 5, [1, 2]⟩) =
      ⟨false, true, some ⟨5, 5, [1, 2]⟩⟩ := by
  have h := claim4_import_source (fun l => l.sum) false 5 9 ⟨0, 0, [1, 2]⟩
    (by decide) (by decide)
  exact ⟨h.1, h.2.1⟩

/-! ## Persistent state store (builders/base.py, `JSONStateFile`, lines 278-302) -/

/-- The builder state map: an association list of string keys to values. -/
abbrev StateMap := List (String × String)

/-- A filesystem for the store: path to file content; an existing file
either parses as a state map or is garbage (truncated or corrupt JSON,
modelled as `some none`). -/
abbrev StateFs := String → Option (Option StateMap)

def fsWrite (fs : StateFs) (p : String) (c : Option StateMap) : StateFs :=
  fun q => if q = p then some c else fs q

def fsRename (fs : StateFs) (src dst : String) : StateFs :=
  fun q => if q = dst then fs src else if q = src then none else fs q

/-- `JSONStateFile.load`: `self._path.exists()` is checked, a missing file
yields the empty map; an existing file is fed straight to `json.load`,
which raises on unparsable content (nothing catches that). -/
def jsonLoad (fs : StateFs) (path : String) : Except Unit StateMap :=
  match fs path with
  | none => .ok []
  | some none => .error ()
  | some (some m) => .ok m

/-- `JSONStateFile.save`: the whole map is dumped to `str(path) + '~'`,
which is then renamed over the state file. -/
def jsonSave (fs : StateFs) (path : String) (st : StateMap) : StateFs :=
  fsRename (fsWrite fs (path ++ "~") (some st)) (path ++ "~") path

/-- Python dict assignment on the loaded state. -/
def mapSet : StateMap → String → String → StateMap
  | [], k, v => [(k, v)]
  | (k', v') :: rest, k, v =>
    if k' = k then (k, v) :: rest else (k', v') :: mapSet rest k v

def mapGet : StateMap → String → Option String
  | [], _ => none
  | (k', v') :: rest, k => if k' = k then some v' else mapGet rest k

/-- The `with statefile as state:` transaction: the state loaded at
construction is mutated and saved on scope exit. -/
def stateTransaction (fs : StateFs) (path : String) (f : StateMap → StateMap) :
    Except Unit StateFs :=
  match jsonLoad fs path with
  | .error e => .error e
  | .ok st => .ok (jsonSave fs path (f st))

theorem mapGet_mapSet (k v : String) : ∀ st : StateMap, mapGet (mapSet st k v) k = some v := by
  intro st
  induction st with
  | nil => simp [mapSet, mapGet]
  | cons e rest ih =>
    obtain ⟨k', v'⟩ := e
    by_cases hk : k' = k
    · simp [mapSet, hk, mapGet]
    · simp [mapSet, hk, mapGet, ih]

theorem path_ne_tmp (path : String) : path ≠ path ++ "~" := by
  intro h
  have hlen := congrArg String.length h
  rw [String.length_append] at hlen
  have hone : ("~" : String).length = 1 := rfl
  omega

/-! ## Claim C5 -/

/-- C5 counterexample: a state file that exists but holds unparsable
(truncated/corrupt) content makes `load` raise - `json.load` is applied to
any existing file and nothing catches the decode error - so an unreadable
store is NOT loaded as an empty map. -/
theorem claim5_counterexample :
    jsonLoad (fun p => if p = "state.json" then some none else none) "state.json" =
      .error () ∧
    jsonLoad (fun p => if p = "state.json" then some none else none) "state.json" ≠
      .ok [] := by
  refine ⟨rfl, fun h => ?_⟩
  exact Except.noConfusion h

/-- C5 (amended): a MISSING state file loads as the empty map (an existing
but unreadable one raises); save dumps the whole map to the temporary file
`path + "~"` and renames it over the state file, leaving every other path
untouched; a key written inside a transaction is visible when the store is
reopened from disk by a new instance. -/
theorem claim5_state_store (fs : StateFs) (path : String) (k v : String) :
    (fs path = none → jsonLoad fs path = .ok []) ∧
    (∀ st : StateMap,
      jsonSave fs path st = fsRename (fsWrite fs (path ++ "~") (some st)) (path ++ "~") path ∧
      jsonSave fs path st path = some (some st) ∧
      jsonSave fs path st (path ++ "~") = none ∧
      (∀ q, q ≠ path → q ≠ path ++ "~" → jsonSave fs path st q = fs q)) ∧
    (∀ st : StateMap, fs path = some (some st) →
      stateTransaction fs path (fun m => mapSet m k v) =
        .ok (jsonSave fs path (mapSet st k v)) ∧
      jsonLoad (jsonSave fs path (mapSet st k v)) path = .ok (mapSet st k v) ∧
      mapGet (mapSet st k v) k = some v) := by
  have hne := path_ne_tmp path
  have hne' : ¬ (path ++ "~" = path) := fun h => hne h.symm
  refine ⟨?_, ?_, ?_⟩
  · intro h
    simp [jsonLoad, h]
  · intro st
    refine ⟨rfl, ?_, ?_, ?_⟩
    · simp [jsonSave, fsRename, fsWrite]
    · simp [jsonSave, fsRename, fsWrite, hne']
    · intro q hq1 hq2
      simp [jsonSave, fsRename, fsWrite, hq1, hq2]
  · intro st h
    refine ⟨?_, ?_, mapGet_mapSet k v st⟩
    · simp [stateTransaction, jsonLoad, h]
    · simp [jsonLoad, jsonSave, fsRename, fsWrite]

def exStateFs : StateFs := fun p => if p = "state.json" then some (some []) else none

/-- C5 witness: loading a missing store yields the empty map, and a
concrete transaction writing one key round-trips through disk. -/
theorem claim5_state_store_witness :
    jsonLoad (fun _ => none) "state.json" = .ok [] ∧
    jsonLoad (jsonSave exStateFs "state.json" (mapSet [] "k" "v")) "state.json" =
      .ok (mapSet [] "k" "v") ∧
    mapGet (mapSet [] "k" "v") "k" = some "v" := by
  have ha := (claim5_state_store (fun _ => none) "state.json" "k" "v").1 rfl
  have hb := (claim5_state_store exStateFs "state.json" "k" "v").2.2 [] rfl
  exact ⟨ha, hb.2.1, hb.2.2⟩

/-! ## Stage declaration (builders/base.py, `Stage.__init__`, lines 76-107) -/

/-- The dependency-relevant attributes a `Stage` ends up with. -/
structure StageDecl where
  name : String
  requires : List String
  after : List String
  before : List String
  include_in_all : Bool
deriving DecidableEq

/-- `Stage.__init__`: note that the `after` attribute DEFAULTS TO
`list(requires)` when the `after` argument is not supplied. -/
def stageInit (name : String) (requires : List String)
    (afterArg : Option (List String)) (beforeArg : List String)
    (includeInAll : Bool) : StageDecl :=
  ⟨name, requires, afterArg.getD requires, beforeArg, includeInAll⟩

/-- With no `after` edges at all, the sequencing loop reproduces the
working list as given. -/
theorem sequenceLoop_no_edges : ∀ (l seq : List Key), (∀ x ∈ l, x ∉ seq) → l.Nodup →
    sequenceLoop (fun _ => []) l.length l seq = some (seq ++ l) := by
  intro l
  induction l with
  | nil => intro seq _ _; simp [sequenceLoop]
  | cons s rest ih =>
    intro seq hdisj hnd
    have hs : s ∉ seq := hdisj s (by simp)
    obtain ⟨hsr, hndr⟩ := List.nodup_cons.mp hnd
    show sequenceLoop (fun _ => []) (rest.length + 1) (s :: rest) seq = _
    simp only [sequenceLoop, if_neg hs, insertLoop]
    rw [if_neg (by simp)]
    have := ih (seq ++ [s])
      (by
        intro x hx
        simp only [List.mem_append, List.mem_singleton]
        rintro (hxs | hxs)
        · exact hdisj x (List.mem_cons_of_mem _ hx) hxs
        · exact hsr (hxs ▸ hx))
      hndr
    rw [this]
    simp

/-! ## Claim C6 -/

/-- C6 counterexample: a stage declared with `requires=['kernel:build']`
and no explicit `after` argument gets `after = ['kernel:build']` - the
constructor derives an ordering edge from the requires declaration alone -
and the sequencer consequently places the required stage first instead of
being free to keep the declaration order. -/
theorem claim6_counterexample :
    (stageInit "install" ["kernel:build"] none [] true).after = ["kernel:build"] ∧
    (stageInit "install" ["kernel:build"] none [] true).after ≠ [] ∧
    sequenceLoop (fun k => if k = ("x", "install") then [("kernel", "build")] else []) 10
      [("x", "install"), ("kernel", "build")] [] =
      some [("kernel", "build"), ("x", "install")] ∧
    sequenceLoop (fun k => if k = ("x", "install") then [("kernel", "build")] else []) 10
      [("x", "install"), ("kernel", "build")] [] ≠
      some [("x", "install"), ("kernel", "build")] := by
  exact ⟨rfl, by decide, by decide, by decide⟩

/-- C6 (amended): the sequencer derives ordering only from the `after`
sets: a stage whose `after` argument is explicitly given keeps exactly
that (an explicit empty list imposes nothing), and with all `after` sets
empty the sequencer emits the stages in declaration order, whatever their
`requires` say - so `requires` by itself imposes no ordering.  But when
the `after` argument is OMITTED the constructor defaults it to the
`requires` list, so an ordering edge is then derived from `requires`. -/
theorem claim6_requires_ordering :
    (∀ (name : String) (requires afterList beforeArg : List String) (inAll : Bool),
      (stageInit name requires (some afterList) beforeArg inAll).after = afterList) ∧
    (∀ (name : String) (requires beforeArg : List String) (inAll : Bool),
      (stageInit name requires none beforeArg inAll).after = requires) ∧
    (∀ S : List Key, S.Nodup → sequenceLoop (fun _ => []) S.length S [] = some S) := by
  refine ⟨fun _ _ _ _ _ => rfl, fun _ _ _ _ => rfl, ?_⟩
  intro S hnd
  have h := sequenceLoop_no_edges S [] (by simp) hnd
  simpa using h

/-- C6 witness: both declaration orders of a two-stage graph with a
requires edge but explicitly empty `after` sets are reproduced as given. -/
theorem claim6_requires_ordering_witness :
    sequenceLoop (fun _ => []) 2 [("a", "s1"), ("b", "s2")] [] =
      some [("a", "s1"), ("b", "s2")] ∧
    sequenceLoop (fun _ => []) 2 [("b", "s2"), ("a", "s1")] [] =
      some [("b", "s2"), ("a", "s1")] ∧
    (stageInit "s1" ["b:s2"] (some []) [] true).after = [] := by
  refine ⟨?_, ?_, claim6_requires_ordering.1 "s1" ["b:s2"] [] [] true⟩
  · exact claim6_requires_ordering.2.2 [("a", "s1"), ("b", "s2")] (by decide)
  · exact claim6_requires_ordering.2.2 [("b", "s2"), ("a", "s1")] (by decide)

/-! ## Selector resolver (main.py, `resolve_alls`, lines 229-242) -/

/-- `resolve_alls`: expand 'ALL' wildcards over the declared stage keys.
A key with no 'ALL' half is added as-is; otherwise every declared key is
matched, skipping stages with `include_in_all = False` exactly when the
stage-half is the wildcard. -/
def resolve_alls (all_keys : List Key) (includeInAll : Key → Bool)
    (listed_keys : List Key) : Finset Key :=
  listed_keys.foldl
    (fun out key =>
      if key.1 ≠ "ALL" ∧ key.2 ≠ "ALL" then insert key out
      else
        all_keys.foldl
          (fun out2 iterkey =>
            if key.2 = "ALL" ∧ includeInAll iterkey = false then out2
            else if (key.1 = "ALL" ∨ key.1 = iterkey.1) ∧
                (key.2 = "ALL" ∨ key.2 = iterkey.2) then
              insert iterkey out2
            else out2)
          out)
    ∅

/-- When does a declared key match a wildcard-bearing selector. -/
def selMatch (includeInAll : Key → Bool) (key x : Key) : Prop :=
  ¬ (key.2 = "ALL" ∧ includeInAll x = false) ∧
  (key.1 = "ALL" ∨ key.1 = x.1) ∧ (key.2 = "ALL" ∨ key.2 = x.2)

theorem resolve_inner_mem (includeInAll : Key → Bool) (key : Key) :
    ∀ (all_keys : List Key) (out : Finset Key) (x : Key),
      (x ∈ all_keys.foldl (fun out2 iterkey =>
          if key.2 = "ALL" ∧ includeInAll iterkey = false then out2
          else if (key.1 = "ALL" ∨ key.1 = iterkey.1) ∧
              (key.2 = "ALL" ∨ key.2 = iterkey.2) then
            insert iterkey out2
          else out2) out) ↔
        (x ∈ out ∨ (x ∈ all_keys ∧ selMatch includeInAll key x)) := by
  intro all_keys
  induction all_keys with
  | nil => intro out x; simp
  | cons ik rest ih =>
    intro out x
    simp only [List.foldl_cons]
    by_cases hskip : key.2 = "ALL" ∧ includeInAll ik = false
    · rw [if_pos hskip, ih]
      constructor
      · rintro (h | h)
        · exact Or.inl h
        · exact Or.inr ⟨List.mem_cons_of_mem _ h.1, h.2⟩
      · rintro (h | ⟨hmem, hsel⟩)
        · exact Or.inl h
        · rcases List.mem_cons.mp hmem with hx | hx
          · exact absurd (by rw [hx]; exact hskip) hsel.1
          · exact Or.inr ⟨hx, hsel⟩
    · rw [if_neg hskip]
      by_cases hmatch : (key.1 = "ALL" ∨ key.1 = ik.1) ∧ (key.2 = "ALL" ∨ key.2 = ik.2)
      · rw [if_pos hmatch, ih]
        simp only [Finset.mem_insert]
        constructor
        · rintro ((hx | h) | h)
          · refine Or.inr ⟨by simp [hx], ?_⟩
            rw [hx]
            exact ⟨hskip, hmatch⟩
          · exact Or.inl h
          · exact Or.inr ⟨List.mem_cons_of_mem _ h.1, h.2⟩
        · rintro (h | ⟨hmem, hsel⟩)
          · exact Or.inl (Or.inr h)
          · rcases List.mem_cons.mp hmem with hx | hx
            · exact Or.inl (Or.inl hx)
            · exact Or.inr ⟨hx, hsel⟩
      · rw [if_neg hmatch, ih]
        constructor
        · rintro (h | h)
          · exact Or.inl h
          · exact Or.inr ⟨List.mem_cons_of_mem _ h.1, h.2⟩
        · rintro (h | ⟨hmem, hsel⟩)
          · exact Or.inl h
          · rcases List.mem_cons.mp hmem with hx | hx
            · exact absurd (by rw [← hx]; exact hsel.2) hmatch
            · exact Or.inr ⟨hx, hsel⟩

/-- Resolving a single concrete selector: it is added as-is. -/
theorem resolve_single_concrete (all_keys : List Key) (inAll : Key → Bool) (key : Key)
    (hkey : key.1 ≠ "ALL" ∧ key.2 ≠ "ALL") :
    resolve_alls all_keys inAll [key] = {key} := by
  unfold resolve_alls
  simp only [List.foldl_cons, List.foldl_nil]
  rw [if_pos hkey]
  simp

/-- Resolving a single wildcard-bearing selector: membership matches the
declared keys through `selMatch`. -/
theorem resolve_single_wild (all_keys : List Key) (inAll : Key → Bool) (key x : Key)
    (hkey : ¬ (key.1 ≠ "ALL" ∧ key.2 ≠ "ALL")) :
    x ∈ resolve_alls all_keys inAll [key] ↔ (x ∈ all_keys ∧ selMatch inAll key x) := by
  unfold resolve_alls
  simp only [List.foldl_cons, List.foldl_nil]
  rw [if_neg hkey, resolve_inner_mem]
  simp

/-! ## Claim C8 -/

/-- C8: resolving an already-concrete selector naming an existing stage
yields exactly that singleton (idempotence on concrete pairs); a wildcard
stage-half expands to every stage of the matched builder except those with
`include_in_all = False`; a wildcard builder-half matches every builder,
with the `include_in_all` exclusion applying only when the stage-half is
the wildcard. -/
theorem claim8_resolve_alls (all_keys : List Key) (inAll : Key → Bool) (b s : String)
    (hb : b ≠ "ALL") (hs : s ≠ "ALL") (hmem : (b, s) ∈ all_keys) :
    resolve_alls all_keys inAll [(b, s)] = {(b, s)} ∧
    (∀ x, x ∈ resolve_alls all_keys inAll [(b, "ALL")] ↔
      (x ∈ all_keys ∧ x.1 = b ∧ inAll x = true)) ∧
    (∀ x, x ∈ resolve_alls all_keys inAll [("ALL", s)] ↔ (x ∈ all_keys ∧ x.2 = s)) ∧
    (∀ x, x ∈ resolve_alls all_keys inAll [("ALL", "ALL")] ↔
      (x ∈ all_keys ∧ inAll x = true)) := by
  refine ⟨?_, ?_, ?_, ?_⟩
  · exact resolve_single_concrete all_keys inAll (b, s) ⟨hb, hs⟩
  · intro x
    rw [resolve_single_wild all_keys inAll (b, "ALL") x (by simp)]
    unfold selMatch
    constructor
    · rintro ⟨h1, h2, h3, -⟩
      rcases h3 with h3 | h3
      · exact absurd h3 hb
      · refine ⟨h1, h3.symm, ?_⟩
        rcases Bool.eq_false_or_eq_true (inAll x) with ht | hf
        · exact ht
        · exact absurd ⟨rfl, hf⟩ h2
    · rintro ⟨h1, h2, h3⟩
      refine ⟨h1, ?_, Or.inr h2.symm, Or.inl rfl⟩
      rintro ⟨-, hf⟩
      rw [h3] at hf
      exact Bool.noConfusion hf
  · intro x
    rw [resolve_single_wild all_keys inAll ("ALL", s) x (by simp)]
    unfold selMatch
    constructor
    · rintro ⟨h1, h2, -, h3⟩
      rcases h3 with h3 | h3
      · exact absurd h3 hs
      · exact ⟨h1, h3.symm⟩
    · rintro ⟨h1, h2⟩
      refine ⟨h1, ?_, Or.inl rfl, Or.inr h2.symm⟩
      rintro ⟨hall, -⟩
      exact hs hall
  · intro x
    rw [resolve_single_wild all_keys inAll ("ALL", "ALL") x (by simp)]
    unfold selMatch
    constructor
    · rintro ⟨h1, h2, -, -⟩
      refine ⟨h1, ?_⟩
      rcases Bool.eq_false_or_eq_true (inAll x) with ht | hf
      · exact ht
      · exact absurd ⟨rfl, hf⟩ h2
    · rintro ⟨h1, h2⟩
      refine ⟨h1, ?_, Or.inl rfl, Or.inl rfl⟩
      rintro ⟨-, hf⟩
      rw [h2] at hf
      exact Bool.noConfusion hf

/-- C8 witness: concrete resolution over a two-builder graph with one
stage excluded from ALL. -/
theorem claim8_resolve_alls_witness :
    resolve_alls [("k", "build"), ("k", "clean"), ("u", "build")]
        (fun x => x.2 != "clean") [("k", "build")] = {("k", "build")} ∧
    (("k", "clean") ∈ resolve_alls [("k", "build"), ("k", "clean"), ("u", "build")]
        (fun x => x.2 != "clean") [("k", "ALL")] ↔
      (("k", "clean") ∈ [("k", "build"), ("k", "clean"), ("u", "build")] ∧
        ("k", "clean").1 = "k" ∧ (fun (x : Key) => x.2 != "clean") ("k", "clean") = true)) := by
  have h := claim8_resolve_alls [("k", "build"), ("k", "clean"), ("u", "build")]
    (fun x => x.2 != "clean") "k" "build" (by decide) (by decide) (by decide)
  exact ⟨h.1, h.2.1 ("k", "clean")⟩

/-! ## Patch sequencer (builders/base.py, `Patcher`, lines 522-553) -/

/-- The patch cache directory: filename to file. -/
abbrev Cache := List (String × FileData)

def cacheGet : Cache → String → Option FileData
  | [], _ => none
  | (n', f) :: rest, n => if n' = n then some f else cacheGet rest n

def cacheSet : Cache → String → FileData → Cache
  | [], n, f => [(n, f)]
  | (n', f') :: rest, n, f => if n' = n then (n, f) :: rest else (n', f') :: cacheSet rest n f

/-- The `'{serial:04d}_'` zero-padded sequence-number prefix. -/
def padSerial (n : Nat) : String :=
  let s := toString n
  String.mk (List.replicate (4 - s.length) '0') ++ s

def basenameChars (acc : List Char) : List Char → List Char
  | [] => acc.reverse
  | c :: rest => if c = '/' then basenameChars [] rest else basenameChars (c :: acc) rest

/-- `Path(patch).name`: the component after the last slash. -/
def basename (s : String) : String := String.mk (basenameChars [] s.toList)

/-- State of one `Patcher` instance. -/
structure PatcherState where
  sequence_number : Nat
  patchset : List String
deriving DecidableEq

/-- A freshly constructed `Patcher` (`sequence_number = 0`, empty
`patchset`); builders construct one inside each stage run. -/
def patcherInit : PatcherState := ⟨0, []⟩

/-- The per-patch import loop of `Patcher.import_patches`: each patch
gets imported (via the freshness tracker) under the cache name
`NNNN_<basename>`, the serial is bumped, the cache name recorded in the
patchset; a missing patch source is a stage failure. -/
def importPatchesGo (hash : List Nat → Nat) (now : Int) (srcFs : String → Option FileData) :
    PatcherState → Cache → Bool → List String → Except Unit (PatcherState × Cache × Bool)
  | ps, cache, changed, [] => .ok (ps, cache, changed)
  | ps, cache, changed, patch :: rest =>
    match srcFs patch with
    | none => .error ()
    | some src =>
      let tname := padSerial ps.sequence_number ++ "_" ++ basename patch
      let r := import_source hash false now src (cacheGet cache tname)
      importPatchesGo hash now srcFs ⟨ps.sequence_number + 1, ps.patchset ++ [tname]⟩
        (match r.target with | some f => cacheSet cache tname f | none => cache)
        (changed || r.changed) rest

/-- `Patcher.import_patches`: import every patch, then unlink every cached
file not in the current patchset; return whether anything changed. -/
def import_patches (hash : List Nat → Nat) (now : Int) (srcFs : String → Option FileData)
    (ps : PatcherState) (cache : Cache) (patches : List String) :
    Except Unit (PatcherState × Cache × Bool) :=
  match importPatchesGo hash now srcFs ps cache false patches with
  | .error e => .error e
  | .ok (ps', cache', changed) =>
    .ok (ps', cache'.filter (fun e => decide (e.1 ∈ ps'.patchset)),
      changed || !(cache'.filter (fun e => decide (e.1 ∉ ps'.patchset))).isEmpty)

/-- The two patch sources of the C7 scenario. -/
def exSrcFs (fa fb : FileData) : String → Option FileData :=
  fun p => if p = "A" then some fa else if p = "B" then some fb else none

/-! ## Claim C7 -/

/-- C7: with a fresh `Patcher` instance per call (as the builders
construct one inside every stage run) over a persistent cache directory:
an import of [A, B] caches the patches as `0000_A`, `0001_B` and reports a
change; then importing [B] deletes the cached copy of A (and the stale
`0001_B`) and reports a change; importing [A, B] a second time with both
patch files unchanged reports no change and preserves the cached names
`0000_A`, `0001_B`. -/
theorem claim7_patcher (hash : List Nat → Nat) (now1 now2 : Int) (fa fb : FileData)
    (ham : fa.mtime ≤ now1) (hac : fa.ctime ≤ now1)
    (hbm : fb.mtime ≤ now1) (hbc : fb.ctime ≤ now1) :
    import_patches hash now1 (exSrcFs fa fb) patcherInit [] ["A", "B"] =
      .ok (⟨2, ["0000_A", "0001_B"]⟩,
        [("0000_A", ⟨now1, now1, fa.content⟩), ("0001_B", ⟨now1, now1, fb.content⟩)],
        true) ∧
    import_patches hash now2 (exSrcFs fa fb) patcherInit
        [("0000_A", ⟨now1, now1, fa.content⟩), ("0001_B", ⟨now1, now1, fb.content⟩)] ["B"] =
      .ok (⟨1, ["0000_B"]⟩, [("0000_B", ⟨now2, now2, fb.content⟩)], true) ∧
    cacheGet [("0000_B", ⟨now2, now2, fb.content⟩)] "0000_A" = none ∧
    import_patches hash now2 (exSrcFs fa fb) patcherInit
        [("0000_A", ⟨now1, now1, fa.content⟩), ("0001_B", ⟨now1, now1, fb.content⟩)]
        ["A", "B"] =
      .ok (⟨2, ["0000_A", "0001_B"]⟩,
        [("0000_A", ⟨now1, now1, fa.content⟩), ("0001_B", ⟨now1, now1, fb.content⟩)],
        false) := by
  have hp0A : padSerial 0 ++ "_" ++ basename "A" = "0000_A" := rfl
  have hp1B : padSerial 1 ++ "_" ++ basename "B" = "0001_B" := rfl
  have hp0B : padSerial 0 ++ "_" ++ basename "B" = "0000_B" := rfl
  have hnam : ¬ (now1 < fa.mtime) := not_lt.mpr ham
  have hnac : ¬ (now1 < fa.ctime) := not_lt.mpr hac
  have hnbm : ¬ (now1 < fb.mtime) := not_lt.mpr hbm
  have hnbc : ¬ (now1 < fb.ctime) := not_lt.mpr hbc
  refine ⟨?_, ?_, by simp [cacheGet], ?_⟩
  · simp [import_patches, importPatchesGo, exSrcFs, patcherInit, hp0A, hp1B,
      cacheGet, cacheSet, import_source]
  · simp [import_patches, importPatchesGo, exSrcFs, patcherInit, hp0B,
      cacheGet, cacheSet, import_source]
  · simp [import_patches, importPatchesGo, exSrcFs, patcherInit, hp0A, hp1B,
      cacheGet, cacheSet, import_source, hnam, hnac, hnbm, hnbc]

/-- C7 witness: the scenario at concrete files and a sum digest stand-in. -/
theorem claim7_patcher_witness :
    import_patches (fun l => l.sum) 5 (exSrcFs ⟨0, 0, [1]⟩ ⟨0, 0, [2]⟩) patcherInit []
        ["A", "B"] =
      .ok (⟨2, ["0000_A", "0001_B"]⟩, [("0000_A", ⟨5, 5, [1]⟩), ("0001_B", ⟨5, 5, [2]⟩)],
        true) ∧
    import_patches (fun l => l.sum) 9 (exSrcFs ⟨0, 0, [1]⟩ ⟨0, 0, [2]⟩) patcherInit
        [("0000_A", ⟨5, 5, [1]⟩), ("0001_B", ⟨5, 5, [2]⟩)] ["A", "B"] =
      .ok (⟨2, ["0000_A", "0001_B"]⟩, [("0000_A", ⟨5, 5, [1]⟩), ("0001_B", ⟨5, 5, [2]⟩)],
        false) := by
  have h := claim7_patcher (fun l => l.sum) 5 9 ⟨0, 0, [1]⟩ ⟨0, 0, [2]⟩
    (by decide) (by decide) (by decide) (by decide)
  exact ⟨h.1, h.2.2.2⟩

/-! ## Bypass resolver (builders/base.py, `BypassableStage`, lines 432-480) -/

/-- When a target is reported unchanged it is left exactly as it was. -/
theorem import_source_unchanged (hash : List Nat → Nat) (ig : Bool) (now : Int)
    (src : FileData) (tgt : Option FileData)
    (h : (import_source hash ig now src tgt).changed = false) :
    (import_source hash ig now src tgt).target = tgt := by
  cases tgt with
  | none => simp [import_source] at h
  | some t =>
    simp only [import_source] at h ⊢
    by_cases hts : ¬ ig = true ∧
        (t.mtime < src.mtime ∨ t.ctime < src.ctime ∨ t.content.length ≠ src.content.length)
    · rw [if_pos hts] at h
      simp at h
    · rw [if_neg hts] at h ⊢
      by_cases hh : hash src.content ≠ hash t.content
      · rw [if_pos hh] at h
        simp at h
      · rw [if_neg hh] at h ⊢

/-- Builder-visible state touched by a bypassed run: the freshness-tracked
copy of the bundle in the build workspace, the output directory contents,
and the `.bypassed` canary marker inside it. -/
structure BypassRunState where
  buildCopy : Option FileData
  outputFiles : List (String × FileData)
  canary : Bool

/-- `BypassableStage.check`: when the bundle `bypass.<builder>.tbz2` is
present in the user sources directory the check reports success without
consulting the stage's own check function; otherwise `Stage.check` runs
it (an absent check function means True). -/
def bypassCheck (bundle : Option FileData) (checkFn : Option (Unit → Bool)) : Bool :=
  match bundle with
  | some _ => true
  | none =>
    match checkFn with
    | none => true
    | some f => f ()

/-- `BypassableStage.run`: with the bundle present, a stage not flagged
`extract_bypass` does nothing; an extraction-relevant stage imports the
bundle into the build workspace and, when that import reports a change or
the canary is missing, clears the output directory, extracts the bundle
into it (`extract` models `tar -xf`) and touches the canary; otherwise
nothing is modified.  With no bundle the underlying run action executes. -/
def bypassRun (extract : List Nat → List (String × FileData)) (hash : List Nat → Nat)
    (now : Int) (extract_bypass : Bool) (bundle : Option FileData)
    (runFn : BypassRunState → BypassRunState) (st : BypassRunState) : BypassRunState :=
  match bundle with
  | none => runFn st
  | some bf =>
    if extract_bypass = false then st
    else
      let imp := import_source hash false now bf st.buildCopy
      if imp.changed || !st.canary then
        ⟨imp.target, extract bf.content, true⟩
      else
        ⟨imp.target, st.outputFiles, st.canary⟩

/-! ## Claim C9 -/

/-- C9: with the bundle present, the check passes whatever the stage's own
check function is; a run not flagged extraction-relevant changes nothing;
an extraction-relevant run either leaves everything untouched (the
bundle import unchanged and canary present) or clears the output directory,
extracts the bundle into it and touches the canary; with no bundle the
underlying behavior is used. -/
theorem claim9_bypass (extract : List Nat → List (String × FileData)) (hash : List Nat → Nat)
    (now : Int) (bf : FileData) (runFn : BypassRunState → BypassRunState)
    (st : BypassRunState) (checkFn : Option (Unit → Bool)) :
    bypassCheck (some bf) checkFn = true ∧
    bypassRun extract hash now false (some bf) runFn st = st ∧
    ((import_source hash false now bf st.buildCopy).changed = false → st.canary = true →
      bypassRun extract hash now true (some bf) runFn st = st) ∧
    ((import_source hash false now bf st.buildCopy).changed = true ∨ st.canary = false →
      bypassRun extract hash now true (some bf) runFn st =
        ⟨(import_source hash false now bf st.buildCopy).target, extract bf.content, true⟩) ∧
    bypassRun extract hash now true none runFn st = runFn st := by
  refine ⟨rfl, by simp [bypassRun], ?_, ?_, rfl⟩
  · intro h1 h2
    have ht := import_source_unchanged hash false now bf st.buildCopy h1
    simp only [bypassRun]
    rw [if_neg (by simp)]
    rw [if_neg (by simp [h1, h2])]
    rw [ht]
  · intro h
    simp only [bypassRun]
    rw [if_neg (by simp)]
    rcases h with h | h
    · rw [if_pos (by simp [h])]
    · rw [if_pos (by simp [h])]

/-- C9 witness: a bundle whose cached copy is up to date and whose canary
exists makes the extraction-relevant run a no-op, while the check passes
even though the stage's own check function returns False. -/
theorem claim9_bypass_witness :
    bypassCheck (some ⟨0, 0, [7]⟩) (some (fun _ => false)) = true ∧
    bypassRun (fun c => [("out", ⟨0, 0, c⟩)]) (fun l => l.sum) 9 true (some ⟨0, 0, [7]⟩)
        id ⟨some ⟨5, 5, [7]⟩, [("f", ⟨1, 1, []⟩)], true⟩ =
      ⟨some ⟨5, 5, [7]⟩, [("f", ⟨1, 1, []⟩)], true⟩ := by
  have h := claim9_bypass (fun c => [("out", ⟨0, 0, c⟩)]) (fun l => l.sum) 9 ⟨0, 0, [7]⟩
    id ⟨some ⟨5, 5, [7]⟩, [("f", ⟨1, 1, []⟩)], true⟩ (some (fun _ => false))
  exact ⟨h.1, h.2.2.1 (by decide) rfl⟩

/-! ## Default builder stages (builders/base.py, `BaseBuilder.instantiate_stages`
lines 150-163 and `BaseBuilder.__distclean` lines 165-172) -/

/-- A builder's two directory trees. -/
structure BuilderDirs where
  build : List (String × FileData)
  output : List (String × FileData)
deriving DecidableEq

/-- `BaseBuilder.__distclean`: delete the entire build workspace and the
output directory and recreate both empty. -/
def distcleanAction (_ : BuilderDirs) : BuilderDirs := ⟨[], []⟩

/-- A default stage as instantiated by `BaseBuilder.instantiate_stages`:
name, wildcard inclusion, and the bound run action. -/
structure DefaultStage where
  name : String
  include_in_all : Bool
  runAct : BuilderDirs → BuilderDirs

/-- `BaseBuilder.instantiate_stages`: the default stage table binds BOTH
'distclean' and 'clean' to `self.__distclean`, each with
`include_in_all=False`. -/
def instantiate_stages : List (String × DefaultStage) :=
  [("distclean", ⟨"distclean", false, distcleanAction⟩),
   ("clean", ⟨"clean", false, distcleanAction⟩)]

def stageLookup (n : String) : List (String × DefaultStage) → Option DefaultStage
  | [] => none
  | (n', s) :: rest => if n' = n then some s else stageLookup n rest

/-! ## Claim C10 -/

/-- C10: the default 'clean' and 'distclean' stages are two distinct
stages, both excluded from wildcard ALL selection, bound to the same
action, which empties the builder's build workspace and output directory;
hence running the default 'clean' is behaviorally identical to running
'distclean'. -/
theorem claim10_default_stages :
    stageLookup "distclean" instantiate_stages =
      some ⟨"distclean", false, distcleanAction⟩ ∧
    stageLookup "clean" instantiate_stages = some ⟨"clean", false, distcleanAction⟩ ∧
    "clean" ≠ "distclean" ∧
    (⟨"distclean", false, distcleanAction⟩ : DefaultStage).runAct =
      (⟨"clean", false, distcleanAction⟩ : DefaultStage).runAct ∧
    (∀ d : BuilderDirs, distcleanAction d = ⟨[], []⟩) ∧
    resolve_alls [("b", "distclean"), ("b", "clean")] (fun _ => false) [("b", "ALL")] = ∅ ∧
    resolve_alls [("b", "distclean"), ("b", "clean")] (fun _ => false) [("ALL", "ALL")] = ∅ := by
  refine ⟨rfl, rfl, by decide, rfl, fun d => rfl, by decide, by decide⟩
